import Mathlib

/-! Verification of the inbound link checker `check_links.py`.

The script is embedded shallowly.  The URL machinery mirrors the CPython
`urllib.parse` (`urlsplit`, `urlunsplit`, `urljoin`, the `hostname`
property) as structural functions over `List Char`; network and HTML
effects are an explicit oracle (`World`); the page loop of `main` is a
fold threading the link cache, the list of probed URLs and the broken-link
map.  The concurrent executor of lines 129-140 is sequentialized in
submission order: within one page every queued URL is distinct, so the
cache and map contents do not depend on completion order. -/

namespace LinkCheck

/-- Split a character list at the first occurrence of `c`: the part before
and the part after, or `none` when `c` does not occur. -/
def splitFirst (c : Char) : List Char → Option (List Char × List Char)
  | [] => none
  | x :: xs =>
    if x = c then some ([], xs)
    else
      match splitFirst c xs with
      | some (before, after) => some (x :: before, after)
      | none => none

/-- Python `str.split(sep)` for a one-character separator: all groups, with
empty groups kept. -/
def splitAll (c : Char) : List Char → List (List Char)
  | [] => [[]]
  | x :: xs =>
    if x = c then [] :: splitAll c xs
    else
      match splitAll c xs with
      | [] => [[x]]
      | g :: gs => (x :: g) :: gs

/-- Python `sep.join` for a one-character separator. -/
def joinAll (c : Char) : List (List Char) → List Char
  | [] => []
  | [g] => g
  | g :: gs => g ++ c :: joinAll c gs

/-- Characters allowed in a URL scheme (`urllib.parse.scheme_chars`). -/
def isSchemeChar (c : Char) : Bool :=
  c.isAlpha || c.isDigit || c = '+' || c = '-' || c = '.'

/-- A nonempty candidate scheme: leading ASCII letter, then scheme chars. -/
def validScheme : List Char → Bool
  | [] => false
  | c :: rest => c.isAlpha && isSchemeChar c && rest.all isSchemeChar

/-- The result of `urllib.parse.urlsplit`: the five URL components.
The CPython `urlparse` additionally splits `params` off the last path
segment; it is folded into `path` here, which is observationally equivalent
for every operation the script performs (`geturl` re-joins it with `;` and
`urljoin` drops the last base segment together with its params). -/
structure SplitResult where
  scheme : String
  netloc : String
  path : String
  query : String
  fragment : String
deriving DecidableEq, Repr

/-- CPython `urllib.parse.urlsplit` (IPv6 bracket validation elided):
extract the scheme when a valid scheme name sits before the first `:`
(lowercased; otherwise the `scheme` argument is used as default), then the
netloc after a leading `//` up to the first of `/?#`, then the fragment
after the first `#`, then the query after the first `?`. -/
def urlsplit (url : String) (scheme : String := "") : SplitResult :=
  let schemeRest : List Char × List Char :=
    match splitFirst ':' url.data with
    | some (before, after) =>
      if validScheme before then (before.map Char.toLower, after)
      else (scheme.data, url.data)
    | none => (scheme.data, url.data)
  let rest := schemeRest.2
  let netlocRest : List Char × List Char :=
    if rest.take 2 = ['/', '/'] then
      ((rest.drop 2).takeWhile (fun c => ¬(c = '/' ∨ c = '?' ∨ c = '#')),
       (rest.drop 2).dropWhile (fun c => ¬(c = '/' ∨ c = '?' ∨ c = '#')))
    else ([], rest)
  let fragSplit : List Char × List Char :=
    match splitFirst '#' netlocRest.2 with
    | some (u, f) => (u, f)
    | none => (netlocRest.2, [])
  let querySplit : List Char × List Char :=
    match splitFirst '?' fragSplit.1 with
    | some (u, q) => (u, q)
    | none => (fragSplit.1, [])
  ⟨String.mk schemeRest.1, String.mk netlocRest.1, String.mk querySplit.1,
   String.mk querySplit.2, String.mk fragSplit.2⟩

/-- CPython `urllib.parse.urlunsplit`, which is also what `geturl` returns
after a `_replace`. -/
def urlunsplit (p : SplitResult) : String :=
  let url0 := p.path.data
  let url1 :=
    if p.netloc.data ≠ [] ∨ (url0 ≠ [] ∧ url0.take 2 = ['/', '/']) then
      '/' :: '/' :: (p.netloc.data ++
        (if url0 ≠ [] ∧ url0.take 1 ≠ ['/'] then '/' :: url0 else url0))
    else url0
  let url2 := if p.scheme.data ≠ [] then p.scheme.data ++ ':' :: url1 else url1
  let url3 := if p.query.data ≠ [] then url2 ++ '?' :: p.query.data else url2
  let url4 := if p.fragment.data ≠ [] then url3 ++ '#' :: p.fragment.data else url3
  String.mk url4

/-- CPython `SplitResult.hostname`: the netloc after the last `@`; inside
the brackets when a `[` is present, otherwise up to the first `:`;
lowercased; `none` when empty. -/
def SplitResult.hostname (p : SplitResult) : Option String :=
  let hostinfo := (p.netloc.data.reverse.takeWhile (fun c => c ≠ '@')).reverse
  let host :=
    match splitFirst '[' hostinfo with
    | some (_, bracketed) =>
      match splitFirst ']' bracketed with
      | some (h, _) => h
      | none => bracketed
    | none =>
      match splitFirst ':' hostinfo with
      | some (h, _) => h
      | none => hostinfo
  if host = [] then none else some (String.mk (host.map Char.toLower))

/-- `urllib.parse.uses_relative`. -/
def usesRelative : List String :=
  ["", "ftp", "http", "gopher", "nntp", "imap", "wais", "file", "https", "shttp",
   "mms", "prospero", "rtsp", "rtspu", "sftp", "svn", "svn+ssh", "ws", "wss"]

/-- `urllib.parse.uses_netloc`. -/
def usesNetloc : List String :=
  ["", "ftp", "http", "gopher", "nntp", "telnet", "imap", "wais", "file", "mms",
   "https", "shttp", "snews", "prospero", "rtsp", "rtspu", "rsync", "svn",
   "svn+ssh", "sftp", "nfs", "git", "git+ssh", "ws", "wss", "itms-services"]

/-- Python slice assignment `segments[1:-1] = filter(None, segments[1:-1])`:
drop empty segments, keeping the first and the last element. -/
def filterMiddle : List (List Char) → List (List Char)
  | [] => []
  | [a] => [a]
  | a :: rest => a :: ((rest.dropLast.filter (fun s => s ≠ [])) ++ [rest.getLastD []])

/-- The `.` / `..` resolution loop of `urljoin`. -/
def resolveSegments (segments : List (List Char)) : List (List Char) :=
  segments.foldl
    (fun acc seg =>
      if seg = ['.', '.'] then acc.dropLast
      else if seg = ['.'] then acc
      else acc ++ [seg]) []

/-- CPython `urllib.parse.urljoin`. -/
def urljoin (base url : String) : String :=
  if base = "" then url
  else if url = "" then base
  else
    let b := urlsplit base ""
    let r := urlsplit url b.scheme
    if r.scheme ≠ b.scheme ∨ r.scheme ∉ usesRelative then url
    else if r.scheme ∈ usesNetloc ∧ r.netloc ≠ "" then urlunsplit r
    else
      let netloc := if r.scheme ∈ usesNetloc then b.netloc else r.netloc
      if r.path = "" then
        urlunsplit ⟨r.scheme, netloc, b.path,
          if r.query = "" then b.query else r.query, r.fragment⟩
      else
        let bparts0 := splitAll '/' b.path.data
        let bparts := if bparts0.getLastD [] ≠ [] then bparts0.dropLast else bparts0
        let segments :=
          if r.path.data.take 1 = ['/'] then splitAll '/' r.path.data
          else filterMiddle (bparts ++ splitAll '/' r.path.data)
        let resolved0 := resolveSegments segments
        let resolved :=
          if segments.getLastD [] = ['.'] ∨ segments.getLastD [] = ['.', '.']
          then resolved0 ++ [[]] else resolved0
        let joined := joinAll '/' resolved
        urlunsplit ⟨r.scheme, netloc,
          String.mk (if joined = [] then ['/'] else joined), r.query, r.fragment⟩

/-- Line 102 without the resolution step:
`urlparse(u)._replace(fragment="").geturl()`. -/
def strip_fragment (u : String) : String :=
  urlunsplit { urlsplit u "" with fragment := "" }

/-- Lines 101-102 of `check_links.py`: resolve an href against the page URL
and drop the fragment; the result is the deduplication key. -/
def normalize_href (page_url href : String) : String :=
  strip_fragment (urljoin page_url href)

/-- Outcome of one `requests.get` for a link probe (line 62): a status code
after redirects, or one of the three caught exception classes. -/
inductive LinkResp where
  | status (code : Nat)
  | timeout
  | connError
  | otherError
deriving DecidableEq, Repr

/-- Outcome of fetching the sitemap (line 40): a transport-level
`RequestException`, or a status code with the `<loc>` texts that
`BeautifulSoup` would extract in document order. -/
inductive SitemapResp where
  | failure
  | ok (code : Nat) (locs : List String)
deriving DecidableEq, Repr

/-- The network/HTML oracle: what each HTTP request would return during
this run.  `page p` is `none` on a transport-level `RequestException`,
otherwise the status code and the `href` attributes of the anchor
elements of the page in document order. -/
structure World where
  sitemap : SitemapResp
  page : String → Option (Nat × List String)
  link : String → LinkResp

/-- `url.startswith(('mailto:', 'tel:', 'javascript:')) or url.startswith('#')`
(line 58). -/
def specialHref (url : String) : Bool :=
  "mailto:".data.isPrefixOf url.data || "tel:".data.isPrefixOf url.data ||
  "javascript:".data.isPrefixOf url.data || "#".data.isPrefixOf url.data

/-- `check_link` (lines 51-82): the per-URL prober, returning
`(url, status_code, message)`. -/
def check_link (w : World) (url : String) : String × Int × String :=
  if specialHref url then (url, 0, "SKIPPED")
  else
    match w.link url with
    | .status code => (url, (code : Int), if 400 ≤ code then "BROKEN" else "OK")
    | .timeout => (url, -1, "ERROR (Timeout)")
    | .connError => (url, -2, "ERROR (Connection)")
    | .otherError => (url, -3, "ERROR (Jiná chyba)")

/-- `link_cache`: an association list keyed by normalized URL. -/
abbrev Cache := List (String × Int × String)

/-- Python `url in link_cache` / `link_cache[url]`. -/
def cacheLookup : Cache → String → Option (Int × String)
  | [], _ => none
  | e :: rest, url => if e.1 = url then some e.2 else cacheLookup rest url

/-- Python `link_cache[url] = value`. -/
def cacheInsert (c : Cache) (url : String) (v : Int × String) : Cache :=
  if (cacheLookup c url).isSome then
    c.map (fun e => if e.1 = url then (url, v.1, v.2) else e)
  else c ++ [(url, v.1, v.2)]

/-- `message not in ("OK", "SKIPPED")` (lines 121 and 139). -/
def badMsg (message : String) : Bool :=
  !(message == "OK" || message == "SKIPPED")

/-- The in-scope filter of lines 113-117: the scheme is exactly `http` or
`https` and the hostname (with `or ""` for a missing one) equals the base
domain of the run. -/
def inScope (dom url : String) : Bool :=
  let parsed := urlsplit url ""
  (parsed.scheme == "http" || parsed.scheme == "https") &&
    (parsed.hostname.getD "") == dom

/-- The Python set `links_on_page` as a first-occurrence list. -/
def dedupGo (seen : List String) : List String → List String
  | [] => []
  | u :: rest => if u ∈ seen then dedupGo seen rest else u :: dedupGo (u :: seen) rest

/-- Deduplicate keeping first occurrences. -/
def dedup (l : List String) : List String := dedupGo [] l

/-- The normalized candidate links of one page (lines 97-103). -/
def pageLinks (page_url : String) (hrefs : List String) : List String :=
  dedup (hrefs.map (normalize_href page_url))

/-- A `(url, status, message)` triple as stored in findings lists. -/
abbrev Finding := String × Int × String

/-- The locked partition loop of lines 110-127: a cached link with a bad
message becomes a finding at once, an uncached in-scope link is queued for
the executor, everything else is dropped. -/
def partitionLinks (dom : String) (cache : Cache) : List String → List Finding × List String
  | [] => ([], [])
  | url :: rest =>
    let r := partitionLinks dom cache rest
    if inScope dom url then
      match cacheLookup cache url with
      | some v => if badMsg v.2 then ((url, v.1, v.2) :: r.1, r.2) else r
      | none => (r.1, url :: r.2)
    else r

/-- The executor of lines 129-140, sequentialized in submission order:
probe each queued URL, write the outcome into the cache, and record every
bad outcome as a finding. -/
def probePhase (w : World) (cache : Cache) : List String → List Finding × Cache
  | [] => ([], cache)
  | url :: rest =>
    let r := check_link w url
    let tail := probePhase w (cacheInsert cache r.1 r.2) rest
    (if badMsg r.2.2 then r :: tail.1 else tail.1, tail.2)

/-- What one `check_page_links` call returns and does to the shared state:
its findings list, the cache afterwards, and the URLs it probed. -/
structure PageScan where
  findings : List Finding
  cache : Cache
  probed : List String
deriving DecidableEq, Repr

/-- `check_page_links` (lines 84-145). -/
def check_page_links (w : World) (dom : String) (cache : Cache) (page_url : String) :
    PageScan :=
  match w.page page_url with
  | none => ⟨[], cache, []⟩
  | some (code, hrefs) =>
    if 400 ≤ code then
      ⟨[(page_url, (code : Int), "BROKEN (Page from sitemap)")], cache, []⟩
    else
      let links := pageLinks page_url hrefs
      if links = [] then ⟨[], cache, []⟩
      else
        let part := partitionLinks dom cache links
        let probe := probePhase w cache part.2
        ⟨part.1 ++ probe.1, probe.2, part.2⟩

/-- `get_sitemap_urls` (lines 35-49): `raise_for_status` raises exactly for
status codes 400-599, and any `RequestException` is caught and yields the
empty list. -/
def get_sitemap_urls (w : World) : List String :=
  match w.sitemap with
  | .failure => []
  | .ok code locs => if 400 ≤ code ∧ code < 600 then [] else locs

/-- `all_broken_links_map`: broken URL to the set of referencing pages,
the set kept as a first-occurrence list. -/
abbrev BrokenMap := List (String × List String)

/-- Map lookup keyed by broken URL. -/
def mapLookup : BrokenMap → String → Option (List String)
  | [], _ => none
  | e :: rest, url => if e.1 = url then some e.2 else mapLookup rest url

/-- Python `set.add`. -/
def setAdd (pages : List String) (p : String) : List String :=
  if p ∈ pages then pages else pages ++ [p]

/-- Line 182, `all_broken_links_map[url].add(page_url)` on the defaultdict. -/
def mapAdd (m : BrokenMap) (url page : String) : BrokenMap :=
  if (mapLookup m url).isSome then
    m.map (fun e => if e.1 = url then (e.1, setAdd e.2 page) else e)
  else m ++ [(url, [page])]

/-- The aggregator state threaded through the page loop of `main`. -/
structure RunState where
  cache : Cache
  probed : List String
  bmap : BrokenMap
deriving DecidableEq, Repr

/-- The state before the first page: empty cache, nothing probed. -/
def initState : RunState := ⟨[], [], []⟩

/-- One iteration of the page loop (lines 171-184). -/
def runStep (w : World) (dom : String) (st : RunState) (page_url : String) : RunState :=
  let scan := check_page_links w dom st.cache page_url
  { cache := scan.cache,
    probed := st.probed ++ scan.probed,
    bmap := scan.findings.foldl (fun m f => mapAdd m f.1 page_url) st.bmap }

/-- The page loop of `main` over a list of sitemap pages. -/
def runPages (w : World) (dom : String) (st : RunState) (pages : List String) : RunState :=
  pages.foldl (runStep w dom) st

/-- `main` (lines 147-233): the process exit code and the final state. -/
def mainRun (w : World) (sitemap_url : String) : Int × RunState :=
  match (urlsplit sitemap_url "").hostname with
  | none => (1, initState)
  | some dom =>
    let pages := get_sitemap_urls w
    if pages = [] then (1, initState)
    else
      let st := runPages w dom initState pages
      (if st.bmap = [] then 0 else 1, st)

/-- Lexicographic code-point order on strings: the order Python `sorted`
uses for `str` values. -/
def lexLe : List Char → List Char → Bool
  | [], _ => true
  | _ :: _, [] => false
  | a :: as, b :: bs => if a = b then lexLe as bs else decide (a.toNat < b.toNat)

/-- String comparison for the report ordering. -/
def strLe (a b : String) : Bool := lexLe a.data b.data

/-- Sorted insertion, used to model Python `sorted`. -/
def insertLe {α : Type} (le : α → α → Bool) (a : α) : List α → List α
  | [] => [a]
  | b :: bs => if le a b then a :: b :: bs else b :: insertLe le a bs

/-- Insertion sort, used to model Python `sorted`. -/
def sortLe {α : Type} (le : α → α → Bool) : List α → List α
  | [] => []
  | a :: as => insertLe le a (sortLe le as)

/-- Lines 208-218: the report iterates `sorted(all_broken_links_map.items())`
(tuple comparison, which under distinct keys is comparison of the URL keys)
and prints `sorted(list(pages))` for each entry. -/
def finalReport (m : BrokenMap) : BrokenMap :=
  (sortLe (fun a b => strLe a.1 b.1) m).map (fun e => (e.1, sortLe strLe e.2))

/-- The `(status, message)` pair `check_link` produces for `url` in world
`w`; every cache entry holds this value for its key. -/
def outcome (w : World) (url : String) : Int × String := (check_link w url).2

/-- Page `page` references normalized URL `url`: the page fetch succeeds
with a status below 400 and `url` is one of its in-scope normalized
candidate links. -/
def referencesLink (w : World) (dom page url : String) : Prop :=
  ∃ code hrefs, w.page page = some (code, hrefs) ∧ code < 400 ∧
    url ∈ pageLinks page hrefs ∧ inScope dom url = true

/-- Page `page` is in the broken-link map at key `url`. -/
def memMap (m : BrokenMap) (url page : String) : Prop :=
  ∃ ps, mapLookup m url = some ps ∧ page ∈ ps

/-- The run invariant on the shared state: every cache entry holds the
deterministic probe outcome of its in-scope key, the cache keys are exactly
the probed URLs, and no URL was probed twice. -/
def StOK (w : World) (dom : String) (st : RunState) : Prop :=
  (∀ u v, cacheLookup st.cache u = some v → v = outcome w u ∧ inScope dom u = true) ∧
  (∀ u, (cacheLookup st.cache u).isSome = true ↔ u ∈ st.probed) ∧
  st.probed.Nodup

/-- The invariant on the broken-link map: every key is an in-scope link, or
it is a sitemap page whose own fetch returned status 400 or above, in which
case its referencing-page set is exactly itself. -/
def MapOK (w : World) (dom : String) (pages : List String) (m : BrokenMap) : Prop :=
  ∀ u ps, mapLookup m u = some ps → inScope dom u = true ∨
    (u ∈ pages ∧ (∃ code hrefs, w.page u = some (code, hrefs) ∧ 400 ≤ code) ∧ ps = [u])

/-- A two-page demo run on domain `x.com`: both pages reference the same
broken link (modulo fragment), page one also carries an OK link, a mailto
link and an external link. -/
def wDemo : World :=
  ⟨.ok 200 ["http://x.com/p1", "http://x.com/p2"],
   fun s =>
     if s = "http://x.com/p1" then
       some (200, ["http://x.com/broken#a", "http://x.com/ok", "mailto:a@b.com",
                   "http://other.com/e"])
     else if s = "http://x.com/p2" then some (200, ["http://x.com/broken#b"])
     else none,
   fun s => if s = "http://x.com/broken" then .status 404 else .status 200⟩

/-- A world whose link oracle exercises every probe outcome. -/
def wProbe : World :=
  ⟨.ok 200 [],
   fun _ => none,
   fun s =>
     if s = "http://x.com/e404" then .status 404
     else if s = "http://x.com/e200" then .status 200
     else if s = "http://x.com/t" then .timeout
     else if s = "http://x.com/c" then .connError
     else .otherError⟩

/-- A run in which an out-of-scope URL is both a candidate link on one page
and a sitemap page answering 404. -/
def wScope : World :=
  ⟨.ok 200 ["http://x.com/a", "http://other.com/p"],
   fun s =>
     if s = "http://x.com/a" then some (200, ["http://other.com/p"])
     else if s = "http://other.com/p" then some (404, [])
     else none,
   fun _ => .status 200⟩

/-- A run whose middle page fails at transport level. -/
def wPageFail : World :=
  ⟨.ok 200 ["http://x.com/p1", "http://x.com/dead", "http://x.com/p2"],
   fun s =>
     if s = "http://x.com/dead" then none
     else if s = "http://x.com/p1" then some (200, ["http://x.com/ok"])
     else if s = "http://x.com/p2" then some (200, ["http://x.com/broken"])
     else none,
   fun s => if s = "http://x.com/broken" then .status 500 else .status 200⟩

/-- A run whose first sitemap page answers 404 and is also referenced as a
link by the second page. -/
def wBadPage : World :=
  ⟨.ok 200 ["http://x.com/p", "http://x.com/q"],
   fun s =>
     if s = "http://x.com/p" then some (404, [])
     else if s = "http://x.com/q" then some (200, ["http://x.com/p"])
     else none,
   fun _ => .status 404⟩

/-- A run whose sitemap fetch raises a `RequestException`. -/
def wErrSitemap : World := ⟨.failure, fun _ => none, fun _ => .status 200⟩

/-- A run whose sitemap loads successfully but contains no loc entries. -/
def wEmptySitemap : World := ⟨.ok 200 [], fun _ => none, fun _ => .status 200⟩

/-- `check_link` always returns its argument URL in the first component. -/
theorem check_link_fst (w : World) (url : String) : (check_link w url).1 = url := by
  by_cases h : specialHref url = true
  · simp [check_link, h]
  · simp only [check_link, h, Bool.false_eq_true, if_false]
    cases w.link url <;> simp

/-- The in-place dictionary update of `cacheInsert`, by lookups. -/
theorem cacheLookup_mapUpdate (c : Cache) (url : String) (v : Int × String) (u : String) :
    cacheLookup (c.map (fun e => if e.1 = url then (url, v.1, v.2) else e)) u =
      if u = url ∧ (cacheLookup c url).isSome = true then some v
      else cacheLookup c u := by
  induction c with
  | nil => simp [cacheLookup]
  | cons e rest ih =>
    by_cases he : e.1 = url
    · by_cases hu : u = url
      · subst hu
        simp [cacheLookup, List.map_cons, he]
      · have h1 : ¬(url = u) := fun hh => hu hh.symm
        have h2 : ¬(e.1 = u) := he ▸ h1
        simp only [List.map_cons, he, if_true, cacheLookup, h1, if_false, h2, ih]
        simp [hu]
    · by_cases heu : e.1 = u
      · have hu : ¬u = url := fun hh => he (heu.trans hh)
        simp [cacheLookup, List.map_cons, he, heu, hu]
      · simp only [List.map_cons, he, if_false, cacheLookup, heu, ih]

/-- Lookup over an appended cache: the left part wins. -/
theorem cacheLookup_append (c d : Cache) (u : String) :
    cacheLookup (c ++ d) u =
      if (cacheLookup c u).isSome = true then cacheLookup c u else cacheLookup d u := by
  induction c with
  | nil => simp [cacheLookup]
  | cons e rest ih =>
    by_cases heu : e.1 = u
    · simp [cacheLookup, heu]
    · simp only [List.cons_append, cacheLookup, heu, if_false]
      exact ih

/-- Python `link_cache[url] = v`: the written key reads back `v`, every
other key is unchanged. -/
theorem cacheLookup_insert (c : Cache) (url : String) (v : Int × String) (u : String) :
    cacheLookup (cacheInsert c url v) u = if u = url then some v else cacheLookup c u := by
  unfold cacheInsert
  split
  case isTrue h =>
    rw [cacheLookup_mapUpdate]
    by_cases hu : u = url
    · simp [hu, h]
    · simp [hu]
  case isFalse h =>
    have hnone : cacheLookup c url = none := by
      cases hc : cacheLookup c url
      · rfl
      · exact absurd (by simp [hc]) h
    rw [cacheLookup_append]
    by_cases hu : u = url
    · subst hu
      simp [hnone, cacheLookup]
    · have h1 : ¬(url = u) := fun hh => hu hh.symm
      by_cases hs : (cacheLookup c u).isSome = true
      · simp [hs, hu]
      · have : cacheLookup c u = none := by
          cases hc : cacheLookup c u
          · rfl
          · exact absurd (by simp [hc]) hs
        simp [hs, hu, this, cacheLookup, h1]

/-- The added page is a member after `set.add`. -/
theorem mem_setAdd_self (ps : List String) (p : String) : p ∈ setAdd ps p := by
  unfold setAdd
  split
  · assumption
  · simp

/-- `set.add` keeps existing members. -/
theorem mem_setAdd_of_mem (ps : List String) (p q : String) (h : q ∈ ps) :
    q ∈ setAdd ps p := by
  unfold setAdd
  split
  · exact h
  · exact List.mem_append_left _ h

/-- The in-place update of a broken-map entry, by lookups. -/
theorem mapLookup_mapUpdate (m : BrokenMap) (url p : String) (u : String) :
    mapLookup (m.map (fun e => if e.1 = url then (e.1, setAdd e.2 p) else e)) u =
      if u = url then (mapLookup m url).map (fun ps => setAdd ps p)
      else mapLookup m u := by
  induction m with
  | nil => simp [mapLookup]
  | cons e rest ih =>
    by_cases he : e.1 = url
    · by_cases hu : u = url
      · subst hu
        simp [mapLookup, List.map_cons, he]
      · have h1 : ¬(url = u) := fun hh => hu hh.symm
        have h2 : ¬(e.1 = u) := he ▸ h1
        simp only [List.map_cons, he, if_true, mapLookup, h2, if_false, ih]
        simp [hu, h1]
    · by_cases heu : e.1 = u
      · have hu : ¬u = url := fun hh => he (heu.trans hh)
        simp [mapLookup, List.map_cons, he, heu, hu]
      · simp only [List.map_cons, he, if_false, mapLookup, heu, ih]

/-- Lookup over an appended broken map: the left part wins. -/
theorem mapLookup_append (m d : BrokenMap) (u : String) :
    mapLookup (m ++ d) u =
      if (mapLookup m u).isSome = true then mapLookup m u else mapLookup d u := by
  induction m with
  | nil => simp [mapLookup]
  | cons e rest ih =>
    by_cases heu : e.1 = u
    · simp [mapLookup, heu]
    · simp only [List.cons_append, mapLookup, heu, if_false]
      exact ih

/-- `all_broken_links_map[url].add(page)` characterized by lookups: the
touched key gains `page` (a fresh singleton when absent), every other key
is unchanged. -/
theorem mapLookup_add (m : BrokenMap) (url p u : String) :
    mapLookup (mapAdd m url p) u =
      if u = url then some ((mapLookup m url).elim [p] (fun ps => setAdd ps p))
      else mapLookup m u := by
  unfold mapAdd
  split
  case isTrue h =>
    obtain ⟨ps, hps⟩ := Option.isSome_iff_exists.mp h
    rw [mapLookup_mapUpdate]
    by_cases hu : u = url
    · simp [hu, hps]
    · simp [hu]
  case isFalse h =>
    have hnone : mapLookup m url = none := by
      cases hm : mapLookup m url
      · rfl
      · exact absurd (by simp [hm]) h
    rw [mapLookup_append]
    by_cases hu : u = url
    · subst hu
      simp [hnone, mapLookup]
    · have h1 : ¬(url = u) := fun hh => hu hh.symm
      by_cases hs : (mapLookup m u).isSome = true
      · simp [hs, hu]
      · have : mapLookup m u = none := by
          cases hm : mapLookup m u
          · rfl
          · exact absurd (by simp [hm]) hs
        simp [hs, hu, this, mapLookup, h1]

/-- After `mapAdd m url p`, page `p` is recorded under `url`. -/
theorem memMap_add_self (m : BrokenMap) (url p : String) : memMap (mapAdd m url p) url p := by
  refine ⟨(mapLookup m url).elim [p] (fun ps => setAdd ps p), ?_, ?_⟩
  · rw [mapLookup_add]; simp
  · cases h : mapLookup m url
    · simp
    · simpa using mem_setAdd_self _ p

/-- `mapAdd` never removes a recorded page. -/
theorem memMap_mono_add (m : BrokenMap) (url p u q : String) (h : memMap m u q) :
    memMap (mapAdd m url p) u q := by
  obtain ⟨ps, hps, hq⟩ := h
  by_cases hu : u = url
  · subst hu
    refine ⟨setAdd ps p, ?_, mem_setAdd_of_mem ps p q hq⟩
    rw [mapLookup_add]
    simp [hps]
  · exact ⟨ps, by rw [mapLookup_add]; simp [hu, hps], hq⟩

/-- Folding `mapAdd` over a findings list never removes a recorded page. -/
theorem memMap_mono_fold (fs : List Finding) (p : String) (m : BrokenMap) (u q : String)
    (h : memMap m u q) :
    memMap (fs.foldl (fun acc f => mapAdd acc f.1 p) m) u q := by
  induction fs generalizing m with
  | nil => exact h
  | cons f rest ih => exact ih _ (memMap_mono_add m f.1 p u q h)

/-- A key that appears in a findings list gets the page recorded by the
fold of line 182. -/
theorem memMap_fold_of_mem (fs : List Finding) (p : String) (m : BrokenMap) (u : String)
    (h : ∃ s msg, (u, s, msg) ∈ fs) :
    memMap (fs.foldl (fun acc f => mapAdd acc f.1 p) m) u p := by
  induction fs generalizing m with
  | nil => simp at h
  | cons f rest ih =>
    obtain ⟨s, msg, hmem⟩ := h
    rcases List.mem_cons.mp hmem with hf | hf
    · have hf1 : f.1 = u := by rw [← hf]
      exact memMap_mono_fold rest p _ u p (hf1 ▸ memMap_add_self m f.1 p)
    · exact ih _ ⟨s, msg, hf⟩

/-- Folding `mapAdd` leaves keys outside the findings list unchanged. -/
theorem mapLookup_fold_nomem (fs : List Finding) (p : String) (m : BrokenMap) (u : String)
    (h : ∀ f ∈ fs, f.1 ≠ u) :
    mapLookup (fs.foldl (fun acc f => mapAdd acc f.1 p) m) u = mapLookup m u := by
  induction fs generalizing m with
  | nil => rfl
  | cons f rest ih =>
    rw [List.foldl_cons, ih _ (fun g hg => h g (List.mem_cons_of_mem f hg)), mapLookup_add]
    have : ¬(u = f.1) := fun hh => h f (List.mem_cons_self f rest) hh.symm
    simp [this]

/-- Membership in the deduplicated list. -/
theorem mem_dedupGo (seen l : List String) (u : String) :
    u ∈ dedupGo seen l ↔ u ∈ l ∧ u ∉ seen := by
  induction l generalizing seen with
  | nil => simp [dedupGo]
  | cons a rest ih =>
    by_cases ha : a ∈ seen
    · rw [dedupGo, if_pos ha, ih]
      constructor
      · rintro ⟨h1, h2⟩
        exact ⟨List.mem_cons_of_mem a h1, h2⟩
      · rintro ⟨h1, h2⟩
        rcases List.mem_cons.mp h1 with h | h
        · exact absurd (h ▸ ha) h2
        · exact ⟨h, h2⟩
    · rw [dedupGo, if_neg ha]
      constructor
      · intro h
        rcases List.mem_cons.mp h with h | h
        · exact ⟨h ▸ List.mem_cons_self a rest, h ▸ ha⟩
        · obtain ⟨h1, h2⟩ := (ih (a :: seen)).mp h
          exact ⟨List.mem_cons_of_mem a h1,
            fun hs => h2 (List.mem_cons_of_mem a hs)⟩
      · rintro ⟨h1, h2⟩
        by_cases hua : u = a
        · exact hua ▸ List.mem_cons_self a _
        · rcases List.mem_cons.mp h1 with h | h
          · exact absurd h hua
          · exact List.mem_cons_of_mem a ((ih (a :: seen)).mpr
              ⟨h, fun hs => (List.mem_cons.mp hs).elim hua h2⟩)

/-- The deduplicated list has the same members as the original. -/
theorem mem_dedup (l : List String) (u : String) : u ∈ dedup l ↔ u ∈ l := by
  rw [dedup, mem_dedupGo]
  simp

/-- Deduplication produces no duplicates. -/
theorem nodup_dedupGo (seen l : List String) : (dedupGo seen l).Nodup := by
  induction l generalizing seen with
  | nil => exact List.nodup_nil
  | cons a rest ih =>
    by_cases ha : a ∈ seen
    · rw [dedupGo, if_pos ha]
      exact ih seen
    · rw [dedupGo, if_neg ha]
      refine List.nodup_cons.mpr ⟨?_, ih (a :: seen)⟩
      intro hmem
      exact ((mem_dedupGo (a :: seen) rest a).mp hmem).2 (List.mem_cons_self a seen)

/-- The Python set `links_on_page` has no duplicates. -/
theorem nodup_dedup (l : List String) : (dedup l).Nodup := nodup_dedupGo [] l

/-- The queued list of the partition loop is exactly the in-scope, uncached
candidate links, in order. -/
theorem partition_queued (dom : String) (cache : Cache) (links : List String) :
    (partitionLinks dom cache links).2 =
      links.filter (fun u => inScope dom u && (cacheLookup cache u).isNone) := by
  induction links with
  | nil => rfl
  | cons url rest ih =>
    rw [partitionLinks]
    by_cases hs : inScope dom url = true
    · cases hc : cacheLookup cache url with
      | none => simp [hs, hc, List.filter_cons, ih]
      | some v =>
        by_cases hb : badMsg v.2 = true
        · simp [hs, hc, hb, List.filter_cons, ih]
        · simp [hs, hc, hb, List.filter_cons, ih]
    · simp [hs, List.filter_cons, ih]

/-- The immediate findings of the partition loop are exactly the in-scope
candidate links already cached with a bad message, carrying their cached
status and message, in order. -/
theorem partition_findings (dom : String) (cache : Cache) (links : List String) :
    (partitionLinks dom cache links).1 =
      links.filterMap (fun u =>
        if inScope dom u then
          match cacheLookup cache u with
          | some v => if badMsg v.2 then some (u, v.1, v.2) else none
          | none => none
        else none) := by
  induction links with
  | nil => rfl
  | cons url rest ih =>
    rw [partitionLinks]
    by_cases hs : inScope dom url = true
    · cases hc : cacheLookup cache url with
      | none => simp [hs, hc, List.filterMap_cons, ih]
      | some v =>
        by_cases hb : badMsg v.2 = true
        · simp [hs, hc, hb, List.filterMap_cons, ih]
        · simp [hs, hc, hb, List.filterMap_cons, ih]
    · simp [hs, List.filterMap_cons, ih]

/-- The findings of the probe phase are exactly the queued URLs whose probe
outcome has a bad message, in submission order. -/
theorem probe_findings (w : World) (q : List String) (cache : Cache) :
    (probePhase w cache q).1 =
      q.filterMap (fun u =>
        if badMsg (outcome w u).2 then some (u, (outcome w u).1, (outcome w u).2)
        else none) := by
  induction q generalizing cache with
  | nil => rfl
  | cons url rest ih =>
    have hcl : check_link w url = (url, (outcome w url).1, (outcome w url).2) :=
      Prod.ext (check_link_fst w url) rfl
    simp only [probePhase, hcl, List.filterMap_cons]
    by_cases hb : badMsg (outcome w url).2 = true
    · simp [hb, ih]
    · simp [hb, ih]

/-- The cache after the probe phase: all queued URLs now hold their probe
outcome, every other key is unchanged. -/
theorem probe_cache (w : World) (q : List String) (cache : Cache) (u : String) :
    cacheLookup (probePhase w cache q).2 u =
      if u ∈ q then some (outcome w u) else cacheLookup cache u := by
  induction q generalizing cache with
  | nil => simp [probePhase]
  | cons url rest ih =>
    have hcl : check_link w url = (url, (outcome w url).1, (outcome w url).2) :=
      Prod.ext (check_link_fst w url) rfl
    simp only [probePhase, hcl]
    rw [ih, cacheLookup_insert]
    by_cases hr : u ∈ rest
    · simp [hr]
    · by_cases hu : u = url
      · subst hu
        simp [hr]
      · simp [hr, hu]

/-- A page whose fetch raises a `RequestException` contributes nothing:
no findings, no cache change, no probes (lines 142-145). -/
theorem scan_pagefail (w : World) (dom : String) (cache : Cache) (p : String)
    (hp : w.page p = none) :
    check_page_links w dom cache p = ⟨[], cache, []⟩ := by
  simp [check_page_links, hp]

/-- A page whose own fetch returns status 400 or above yields exactly the
one self-finding of line 94 and leaves the cache untouched. -/
theorem scan_pagebad (w : World) (dom : String) (cache : Cache) (p : String)
    (code : Nat) (hrefs : List String) (hp : w.page p = some (code, hrefs))
    (hc : 400 ≤ code) :
    check_page_links w dom cache p =
      ⟨[(p, (code : Int), "BROKEN (Page from sitemap)")], cache, []⟩ := by
  simp [check_page_links, hp, hc]

/-- The successful-fetch case of `check_page_links` written as partition
followed by probing (the `links_on_page` empty-check of line 105 is
behaviorally redundant). -/
theorem scan_success (w : World) (dom : String) (cache : Cache) (p : String)
    (code : Nat) (hrefs : List String) (hp : w.page p = some (code, hrefs))
    (hc : code < 400) :
    check_page_links w dom cache p =
      ⟨(partitionLinks dom cache (pageLinks p hrefs)).1 ++
         (probePhase w cache ((partitionLinks dom cache (pageLinks p hrefs)).2)).1,
       (probePhase w cache ((partitionLinks dom cache (pageLinks p hrefs)).2)).2,
       (partitionLinks dom cache (pageLinks p hrefs)).2⟩ := by
  have h4 : ¬(400 ≤ code) := by omega
  by_cases hl : pageLinks p hrefs = []
  · simp [check_page_links, hp, h4, hl, partitionLinks, probePhase]
  · simp [check_page_links, hp, h4, hl]

/-- Everything the partition queues is in scope and uncached. -/
theorem queued_props (dom : String) (cache : Cache) (links : List String) (u : String)
    (h : u ∈ (partitionLinks dom cache links).2) :
    u ∈ links ∧ inScope dom u = true ∧ cacheLookup cache u = none := by
  rw [partition_queued] at h
  obtain ⟨hmem, hpred⟩ := List.mem_filter.mp h
  have h1 : inScope dom u = true := by
    cases hi : inScope dom u
    · rw [hi] at hpred; simp at hpred
    · rfl
  have h2 : cacheLookup cache u = none := by
    cases hc : cacheLookup cache u
    · rfl
    · rw [h1, hc] at hpred; simp at hpred
  exact ⟨hmem, h1, h2⟩

/-- The queued list never repeats a URL: the links of a page form a set. -/
theorem queued_nodup (dom : String) (cache : Cache) (p : String) (hrefs : List String) :
    ((partitionLinks dom cache (pageLinks p hrefs)).2).Nodup := by
  rw [partition_queued]
  exact List.Nodup.filter _ (nodup_dedup _)

/-- An uncached in-scope candidate link is queued. -/
theorem mem_queued (dom : String) (cache : Cache) (links : List String) (u : String)
    (hmem : u ∈ links) (hs : inScope dom u = true) (hc : cacheLookup cache u = none) :
    u ∈ (partitionLinks dom cache links).2 := by
  rw [partition_queued]
  exact List.mem_filter.mpr ⟨hmem, by simp [hs, hc]⟩

/-- Every finding of a successful page scan carries an in-scope URL. -/
theorem findings_inScope (w : World) (dom : String) (cache : Cache) (links : List String)
    (f : Finding)
    (h : f ∈ (partitionLinks dom cache links).1 ++
      (probePhase w cache ((partitionLinks dom cache links).2)).1) :
    inScope dom f.1 = true := by
  rcases List.mem_append.mp h with h | h
  · rw [partition_findings] at h
    obtain ⟨a, _, ha⟩ := List.mem_filterMap.mp h
    by_cases hs : inScope dom a = true
    · rw [if_pos hs] at ha
      cases hc : cacheLookup cache a with
      | none => simp [hc] at ha
      | some v =>
        by_cases hb : badMsg v.2 = true
        · simp only [hc, hb, if_true, Option.some.injEq] at ha
          rw [← ha]
          exact hs
        · simp [hc, hb] at ha
    · simp [hs] at ha
  · rw [probe_findings] at h
    obtain ⟨a, hmem, ha⟩ := List.mem_filterMap.mp h
    by_cases hb : badMsg (outcome w a).2 = true
    · simp only [hb, if_true, Option.some.injEq] at ha
      rw [← ha]
      exact (queued_props dom cache links a hmem).2.1
    · simp [hb] at ha

/-- The cache after one page iteration, by definition. -/
theorem runStep_cache (w : World) (dom : String) (st : RunState) (p : String) :
    (runStep w dom st p).cache = (check_page_links w dom st.cache p).cache := rfl

/-- The probed list after one page iteration, by definition. -/
theorem runStep_probed (w : World) (dom : String) (st : RunState) (p : String) :
    (runStep w dom st p).probed = st.probed ++ (check_page_links w dom st.cache p).probed := rfl

/-- The broken map after one page iteration, by definition. -/
theorem runStep_bmap (w : World) (dom : String) (st : RunState) (p : String) :
    (runStep w dom st p).bmap =
      (check_page_links w dom st.cache p).findings.foldl
        (fun m f => mapAdd m f.1 p) st.bmap := rfl

/-- A page scan that produced nothing leaves the whole state unchanged. -/
theorem runStep_of_scan_trivial (w : World) (dom : String) (st : RunState) (p : String)
    (h : check_page_links w dom st.cache p = ⟨[], st.cache, []⟩) :
    runStep w dom st p = st := by
  unfold runStep
  rw [h]
  cases st
  simp

/-- A transport-failed page leaves the whole state unchanged (lines 142-145). -/
theorem runStep_pagefail (w : World) (dom : String) (st : RunState) (p : String)
    (hp : w.page p = none) : runStep w dom st p = st :=
  runStep_of_scan_trivial w dom st p (scan_pagefail w dom st.cache p hp)

/-- A page answering 400 or above only adds itself to the broken map. -/
theorem runStep_pagebad (w : World) (dom : String) (st : RunState) (p : String)
    (code : Nat) (hrefs : List String) (hp : w.page p = some (code, hrefs))
    (hc : 400 ≤ code) :
    runStep w dom st p = ⟨st.cache, st.probed, mapAdd st.bmap p p⟩ := by
  unfold runStep
  rw [scan_pagebad w dom st.cache p code hrefs hp hc]
  cases st
  simp [List.foldl]

/-- A `check_page_links` call never deletes or changes an existing cache
entry (write-once per key). -/
theorem scan_cache_mono (w : World) (dom : String) (cache : Cache) (p : String)
    (u : String) (v : Int × String) (h : cacheLookup cache u = some v) :
    cacheLookup (check_page_links w dom cache p).cache u = some v := by
  cases hp : w.page p with
  | none => rw [scan_pagefail w dom cache p hp]; exact h
  | some pr =>
    obtain ⟨code, hrefs⟩ := pr
    by_cases hc : 400 ≤ code
    · rw [scan_pagebad w dom cache p code hrefs hp hc]; exact h
    · rw [scan_success w dom cache p code hrefs hp (by omega)]
      have hq : u ∉ (partitionLinks dom cache (pageLinks p hrefs)).2 := by
        intro hm
        simp [(queued_props dom cache _ u hm).2.2] at h
      show cacheLookup (probePhase w cache ((partitionLinks dom cache (pageLinks p hrefs)).2)).2 u = some v
      rw [probe_cache, if_neg hq]
      exact h

/-- One page iteration preserves the run invariant. -/
theorem stOK_step (w : World) (dom : String) (st : RunState) (p : String)
    (h : StOK w dom st) : StOK w dom (runStep w dom st p) := by
  obtain ⟨h1, h2, h3⟩ := h
  cases hp : w.page p with
  | none => rw [runStep_pagefail w dom st p hp]; exact ⟨h1, h2, h3⟩
  | some pr =>
    obtain ⟨code, hrefs⟩ := pr
    by_cases hc : 400 ≤ code
    · rw [runStep_pagebad w dom st p code hrefs hp hc]
      exact ⟨h1, h2, h3⟩
    · have hscan := scan_success w dom st.cache p code hrefs hp (by omega)
      have hcache : (runStep w dom st p).cache =
          (probePhase w st.cache ((partitionLinks dom st.cache (pageLinks p hrefs)).2)).2 := by
        rw [runStep_cache, hscan]
      have hprobed : (runStep w dom st p).probed =
          st.probed ++ (partitionLinks dom st.cache (pageLinks p hrefs)).2 := by
        rw [runStep_probed, hscan]
      refine ⟨?_, ?_, ?_⟩
      · intro u v hv
        rw [hcache, probe_cache] at hv
        by_cases hq : u ∈ (partitionLinks dom st.cache (pageLinks p hrefs)).2
        · rw [if_pos hq] at hv
          obtain rfl := (Option.some.inj hv).symm
          exact ⟨rfl, (queued_props dom st.cache _ u hq).2.1⟩
        · rw [if_neg hq] at hv
          exact h1 u v hv
      · intro u
        rw [hcache, probe_cache, hprobed]
        by_cases hq : u ∈ (partitionLinks dom st.cache (pageLinks p hrefs)).2
        · simp [hq]
        · simp only [hq, if_false, List.mem_append, iff_false, or_false]
          exact h2 u
      · rw [hprobed]
        refine List.Nodup.append h3 (queued_nodup dom st.cache p hrefs) ?_
        rw [List.disjoint_left]
        intro a ha haq
        have := (h2 a).mpr ha
        simp [(queued_props dom st.cache _ a haq).2.2] at this

/-- One page iteration preserves the broken-map invariant. -/
theorem mapOK_step (w : World) (dom : String) (pages : List String) (st : RunState)
    (p : String) (hp : p ∈ pages) (h : MapOK w dom pages st.bmap) :
    MapOK w dom pages (runStep w dom st p).bmap := by
  intro u ps hps
  by_cases hsu : inScope dom u = true
  · exact Or.inl hsu
  · cases hpage : w.page p with
    | none =>
      rw [runStep_pagefail w dom st p hpage] at hps
      exact h u ps hps
    | some pr =>
      obtain ⟨code, hrefs⟩ := pr
      by_cases hc : 400 ≤ code
      · rw [runStep_pagebad w dom st p code hrefs hpage hc] at hps
        simp only at hps
        rw [mapLookup_add] at hps
        by_cases hu : u = p
        · subst hu
          rw [if_pos rfl] at hps
          have hsome := (Option.some.inj hps).symm
          cases hold : mapLookup st.bmap u with
          | none =>
            rw [hold] at hsome
            exact Or.inr ⟨hp, ⟨code, hrefs, hpage, hc⟩, hsome⟩
          | some ps0 =>
            rcases h u ps0 hold with hin | ⟨_, _, hps0⟩
            · exact absurd hin hsu
            · rw [hold] at hsome
              subst hps0
              refine Or.inr ⟨hp, ⟨code, hrefs, hpage, hc⟩, ?_⟩
              rw [hsome]
              simp [setAdd]
        · rw [if_neg hu] at hps
          exact h u ps hps
      · have hscan := scan_success w dom st.cache p code hrefs hpage (by omega)
        rw [runStep_bmap, hscan] at hps
        rw [mapLookup_fold_nomem] at hps
        · exact h u ps hps
        · intro f hf hfu
          exact hsu (hfu ▸ findings_inScope w dom st.cache (pageLinks p hrefs) f hf)

/-- After scanning a page that references `u`, the cache holds the probe
outcome of `u`, and a bad outcome is recorded in the broken map for this
page. -/
theorem runStep_key (w : World) (dom : String) (st : RunState) (p u : String)
    (hst : StOK w dom st) (href : referencesLink w dom p u) :
    cacheLookup (runStep w dom st p).cache u = some (outcome w u) ∧
    (badMsg (outcome w u).2 = true → memMap (runStep w dom st p).bmap u p) := by
  obtain ⟨code, hrefs, hpage, hcode, hmem, hsc⟩ := href
  have hscan := scan_success w dom st.cache p code hrefs hpage hcode
  have hcache : (runStep w dom st p).cache =
      (probePhase w st.cache ((partitionLinks dom st.cache (pageLinks p hrefs)).2)).2 := by
    rw [runStep_cache, hscan]
  have hbmap : (runStep w dom st p).bmap =
      ((partitionLinks dom st.cache (pageLinks p hrefs)).1 ++
        (probePhase w st.cache ((partitionLinks dom st.cache (pageLinks p hrefs)).2)).1).foldl
        (fun m f => mapAdd m f.1 p) st.bmap := by
    rw [runStep_bmap, hscan]
  cases hlc : cacheLookup st.cache u with
  | none =>
    have huq : u ∈ (partitionLinks dom st.cache (pageLinks p hrefs)).2 :=
      mem_queued dom st.cache _ u hmem hsc hlc
    constructor
    · rw [hcache, probe_cache, if_pos huq]
    · intro hb
      rw [hbmap]
      apply memMap_fold_of_mem
      refine ⟨(outcome w u).1, (outcome w u).2, List.mem_append_right _ ?_⟩
      rw [probe_findings]
      exact List.mem_filterMap.mpr ⟨u, huq, by rw [if_pos hb]⟩
  | some v =>
    obtain ⟨hv, _⟩ := hst.1 u v hlc
    have huq : u ∉ (partitionLinks dom st.cache (pageLinks p hrefs)).2 := by
      intro hm
      simp [(queued_props dom st.cache _ u hm).2.2] at hlc
    constructor
    · rw [hcache, probe_cache, if_neg huq, hlc, hv]
    · intro hb
      have hbv : badMsg v.2 = true := by rw [hv]; exact hb
      rw [hbmap]
      apply memMap_fold_of_mem
      refine ⟨v.1, v.2, List.mem_append_left _ ?_⟩
      rw [partition_findings]
      refine List.mem_filterMap.mpr ⟨u, hmem, ?_⟩
      simp [hsc, hlc, hbv]

/-- Unfolding one page of the run loop. -/
theorem runPages_cons (w : World) (dom : String) (st : RunState) (a : String)
    (t : List String) :
    runPages w dom st (a :: t) = runPages w dom (runStep w dom st a) t := rfl

/-- A cache entry, once written, survives the rest of the run unchanged. -/
theorem runPages_cache_mono (w : World) (dom : String) (l : List String) (st : RunState)
    (u : String) (v : Int × String) (h : cacheLookup st.cache u = some v) :
    cacheLookup (runPages w dom st l).cache u = some v := by
  induction l generalizing st with
  | nil => exact h
  | cons a t ih =>
    rw [runPages_cons]
    exact ih (runStep w dom st a) (by rw [runStep_cache]; exact scan_cache_mono w dom st.cache a u v h)

/-- The probed list only grows during the run. -/
theorem runPages_probed_mono (w : World) (dom : String) (l : List String) (st : RunState)
    (u : String) (h : u ∈ st.probed) : u ∈ (runPages w dom st l).probed := by
  induction l generalizing st with
  | nil => exact h
  | cons a t ih =>
    rw [runPages_cons]
    exact ih (runStep w dom st a) (by rw [runStep_probed]; exact List.mem_append_left _ h)

/-- A page recorded in the broken map stays recorded for the whole run. -/
theorem runPages_memMap_mono (w : World) (dom : String) (l : List String) (st : RunState)
    (u q : String) (h : memMap st.bmap u q) : memMap (runPages w dom st l).bmap u q := by
  induction l generalizing st with
  | nil => exact h
  | cons a t ih =>
    rw [runPages_cons]
    refine ih (runStep w dom st a) ?_
    rw [runStep_bmap]
    exact memMap_mono_fold _ _ _ _ _ h

/-- The run invariant holds after any number of pages. -/
theorem stOK_runPages (w : World) (dom : String) (l : List String) (st : RunState)
    (h : StOK w dom st) : StOK w dom (runPages w dom st l) := by
  induction l generalizing st with
  | nil => exact h
  | cons a t ih =>
    rw [runPages_cons]
    exact ih (runStep w dom st a) (stOK_step w dom st a h)

/-- The broken-map invariant holds after any number of pages from the
sitemap list. -/
theorem mapOK_runPages (w : World) (dom : String) (pages l : List String) (st : RunState)
    (hl : ∀ p ∈ l, p ∈ pages) (h : MapOK w dom pages st.bmap) :
    MapOK w dom pages (runPages w dom st l).bmap := by
  induction l generalizing st with
  | nil => exact h
  | cons a t ih =>
    rw [runPages_cons]
    exact ih (runStep w dom st a) (fun p hp => hl p (List.mem_cons_of_mem a hp))
      (mapOK_step w dom pages st a (hl a (List.mem_cons_self a t)) h)

/-- The empty initial state satisfies the run invariant. -/
theorem stOK_init (w : World) (dom : String) : StOK w dom initState := by
  refine ⟨?_, ?_, List.nodup_nil⟩
  · intro u v h
    cases h
  · intro u
    simp [initState, cacheLookup]

/-- If some page of the run references `u`, then by the end of the run the
cache holds the probe outcome of `u`, and a bad outcome is recorded in the
broken map for that page. -/
theorem runPages_key (w : World) (dom : String) (l : List String) (st : RunState)
    (p u : String) (hp : p ∈ l) (hst : StOK w dom st)
    (href : referencesLink w dom p u) :
    cacheLookup (runPages w dom st l).cache u = some (outcome w u) ∧
    (badMsg (outcome w u).2 = true → memMap (runPages w dom st l).bmap u p) := by
  induction l generalizing st with
  | nil => cases hp
  | cons a t ih =>
    rw [runPages_cons]
    rcases List.mem_cons.mp hp with rfl | hp'
    · have hk := runStep_key w dom st p u hst href
      exact ⟨runPages_cache_mono w dom t _ u _ hk.1,
        fun hb => runPages_memMap_mono w dom t _ u p (hk.2 hb)⟩
    · exact ih (runStep w dom st a) hp' (stOK_step w dom st a hst)

/-- C3: every URL beginning with `mailto:`, `tel:`, `javascript:` or `#`
yields `SKIPPED` (status 0), and the result is the same in every world:
the probe performs no network access. -/
theorem probe_special_skipped (url : String)
    (h : "mailto:".data.isPrefixOf url.data = true ∨
      "tel:".data.isPrefixOf url.data = true ∨
      "javascript:".data.isPrefixOf url.data = true ∨
      "#".data.isPrefixOf url.data = true) :
    ∀ w : World, check_link w url = (url, 0, "SKIPPED") := by
  intro w
  have hs : specialHref url = true := by
    unfold specialHref
    rcases h with h | h | h | h <;> simp [h]
  simp [check_link, hs]

/-- Witness for C3: the four skip examples of the spec, in an arbitrary
concrete world. -/
theorem probe_special_skipped_witness :
    ("mailto:".data.isPrefixOf "mailto:a@b.com".data = true ∨
      "tel:".data.isPrefixOf "mailto:a@b.com".data = true ∨
      "javascript:".data.isPrefixOf "mailto:a@b.com".data = true ∨
      "#".data.isPrefixOf "mailto:a@b.com".data = true) ∧
    check_link wProbe "mailto:a@b.com" = ("mailto:a@b.com", 0, "SKIPPED") ∧
    check_link wProbe "tel:+123" = ("tel:+123", 0, "SKIPPED") ∧
    check_link wProbe "javascript:void(0)" = ("javascript:void(0)", 0, "SKIPPED") ∧
    check_link wProbe "#section" = ("#section", 0, "SKIPPED") :=
  ⟨Or.inl (by decide),
   probe_special_skipped "mailto:a@b.com" (Or.inl (by decide)) wProbe,
   probe_special_skipped "tel:+123" (Or.inr (Or.inl (by decide))) wProbe,
   probe_special_skipped "javascript:void(0)" (Or.inr (Or.inr (Or.inl (by decide)))) wProbe,
   probe_special_skipped "#section" (Or.inr (Or.inr (Or.inr (by decide)))) wProbe⟩

/-- C2: for a URL that is not special-cased, the probe returns `BROKEN`
with the status code exactly when the status after redirects is at least
400, `OK` below 400, and the three error classes map to the three error
messages with sentinel status codes. -/
theorem probe_status_mapping (w : World) (url : String) (h : specialHref url = false) :
    (∀ code, w.link url = .status code →
       (400 ≤ code → check_link w url = (url, (code : Int), "BROKEN")) ∧
       (code < 400 → check_link w url = (url, (code : Int), "OK"))) ∧
    (w.link url = .timeout → check_link w url = (url, -1, "ERROR (Timeout)")) ∧
    (w.link url = .connError → check_link w url = (url, -2, "ERROR (Connection)")) ∧
    (w.link url = .otherError → check_link w url = (url, -3, "ERROR (Jiná chyba)")) := by
  refine ⟨?_, ?_, ?_, ?_⟩
  · intro code hcode
    constructor
    · intro h4
      simp [check_link, h, hcode, h4]
    · intro h4
      have : ¬(400 ≤ code) := by omega
      simp [check_link, h, hcode, this]
  · intro hc
    simp [check_link, h, hc]
  · intro hc
    simp [check_link, h, hc]
  · intro hc
    simp [check_link, h, hc]

/-- Witness for C2: HTTP 404 yields `BROKEN(404)`, HTTP 200 yields `OK`,
and the three transport failures yield their error classes. -/
theorem probe_status_mapping_witness :
    specialHref "http://x.com/e404" = false ∧
    check_link wProbe "http://x.com/e404" = ("http://x.com/e404", 404, "BROKEN") ∧
    check_link wProbe "http://x.com/e200" = ("http://x.com/e200", 200, "OK") ∧
    check_link wProbe "http://x.com/t" = ("http://x.com/t", -1, "ERROR (Timeout)") ∧
    check_link wProbe "http://x.com/c" = ("http://x.com/c", -2, "ERROR (Connection)") ∧
    check_link wProbe "http://x.com/o" = ("http://x.com/o", -3, "ERROR (Jiná chyba)") :=
  ⟨by decide,
   ((probe_status_mapping wProbe "http://x.com/e404" (by decide)).1 404 rfl).1 (by omega),
   ((probe_status_mapping wProbe "http://x.com/e200" (by decide)).1 200 rfl).2 (by omega),
   (probe_status_mapping wProbe "http://x.com/t" (by decide)).2.1 rfl,
   (probe_status_mapping wProbe "http://x.com/c" (by decide)).2.2.1 rfl,
   (probe_status_mapping wProbe "http://x.com/o" (by decide)).2.2.2 rfl⟩

/-- C8: a page whose fetch fails at transport level (a `RequestException`,
not an HTTP error status) contributes zero findings, leaves cache and state
untouched, and the run over the remaining pages proceeds exactly as if the
page had not been listed. -/
theorem pagefail_skips_page (w : World) (dom : String) (cache : Cache) (st : RunState)
    (p : String) (l1 l2 : List String) (hp : w.page p = none) :
    check_page_links w dom cache p = ⟨[], cache, []⟩ ∧
    runPages w dom st (l1 ++ p :: l2) = runPages w dom st (l1 ++ l2) := by
  refine ⟨scan_pagefail w dom cache p hp, ?_⟩
  show List.foldl (runStep w dom) st (l1 ++ p :: l2) =
    List.foldl (runStep w dom) st (l1 ++ l2)
  rw [List.foldl_append, List.foldl_append, List.foldl_cons,
    runStep_pagefail w dom _ p hp]

/-- Witness for C8: the dead middle page of `wPageFail` drops out of the
run without affecting the other two pages. -/
theorem pagefail_skips_page_witness :
    wPageFail.page "http://x.com/dead" = none ∧
    check_page_links wPageFail "x.com" [] "http://x.com/dead" = ⟨[], [], []⟩ ∧
    runPages wPageFail "x.com" initState
        (["http://x.com/p1"] ++ "http://x.com/dead" :: ["http://x.com/p2"]) =
      runPages wPageFail "x.com" initState (["http://x.com/p1"] ++ ["http://x.com/p2"]) :=
  ⟨by decide,
   (pagefail_skips_page wPageFail "x.com" [] initState "http://x.com/dead"
      ["http://x.com/p1"] ["http://x.com/p2"] (by decide)).1,
   (pagefail_skips_page wPageFail "x.com" [] initState "http://x.com/dead"
      ["http://x.com/p1"] ["http://x.com/p2"] (by decide)).2⟩

/-- C10: a sitemap page answering status 400 or above yields exactly the
one self-finding of line 94, writes nothing to the cache and probes
nothing; and because the cache is untouched, the same URL is still probed
as a link (exactly once) when some page of the run references it. -/
theorem badpage_self_finding (w : World) (dom : String) (cache : Cache)
    (pages : List String) (p q : String) (code : Nat) (hrefs : List String)
    (hp : w.page p = some (code, hrefs)) (hc : 400 ≤ code) :
    check_page_links w dom cache p =
      ⟨[(p, (code : Int), "BROKEN (Page from sitemap)")], cache, []⟩ ∧
    (q ∈ pages → referencesLink w dom q p →
       p ∈ (runPages w dom initState pages).probed ∧
       (runPages w dom initState pages).probed.count p = 1) := by
  refine ⟨scan_pagebad w dom cache p code hrefs hp hc, ?_⟩
  intro hq href
  have hst := stOK_runPages w dom pages initState (stOK_init w dom)
  have hk := (runPages_key w dom pages initState q p hq (stOK_init w dom) href).1
  have hmem : p ∈ (runPages w dom initState pages).probed :=
    (hst.2.1 p).mp (by simp [hk])
  exact ⟨hmem, List.count_eq_one_of_mem hst.2.2 hmem⟩

/-- Witness for C10: in `wBadPage` the 404 page `p` produces only the
self-finding, stays out of the cache, and is probed once as a link of `q`. -/
theorem badpage_self_finding_witness :
    wBadPage.page "http://x.com/p" = some (404, []) ∧
    referencesLink wBadPage "x.com" "http://x.com/q" "http://x.com/p" ∧
    check_page_links wBadPage "x.com" [] "http://x.com/p" =
      ⟨[("http://x.com/p", 404, "BROKEN (Page from sitemap)")], [], []⟩ ∧
    (runPages wBadPage "x.com" initState
        ["http://x.com/p", "http://x.com/q"]).probed.count "http://x.com/p" = 1 := by
  have href : referencesLink wBadPage "x.com" "http://x.com/q" "http://x.com/p" :=
    ⟨200, ["http://x.com/p"], by decide, by omega, by decide, by decide⟩
  have h := badpage_self_finding wBadPage "x.com" []
    ["http://x.com/p", "http://x.com/q"] "http://x.com/p" "http://x.com/q" 404 []
    (by decide) (by omega)
  exact ⟨by decide, href, h.1, (h.2 (by decide) href).2⟩

/-- C1: over a whole run, no URL is ever probed twice; a cache entry, once
written, is never overwritten (any prefix of the run agrees with every
longer prefix on its cache entries); and when two pages both reference the
same normalized URL, it is probed exactly once and a bad outcome is
recorded in the broken map under both pages. -/
theorem run_dedup_write_once (w : World) (dom : String) (pages : List String) :
    (runPages w dom initState pages).probed.Nodup ∧
    (∀ n m : Nat, n ≤ m → ∀ u v,
       cacheLookup (runPages w dom initState (pages.take n)).cache u = some v →
       cacheLookup (runPages w dom initState (pages.take m)).cache u = some v) ∧
    (∀ p1 p2 u, p1 ∈ pages → p2 ∈ pages →
       referencesLink w dom p1 u → referencesLink w dom p2 u →
       (runPages w dom initState pages).probed.count u = 1 ∧
       (badMsg (outcome w u).2 = true →
         ∃ ps, mapLookup (runPages w dom initState pages).bmap u = some ps ∧
           p1 ∈ ps ∧ p2 ∈ ps)) := by
  have hst := stOK_runPages w dom pages initState (stOK_init w dom)
  refine ⟨hst.2.2, ?_, ?_⟩
  · intro n m hnm u v h
    have hsplit : pages.take m = pages.take n ++ (pages.drop n).take (m - n) := by
      rw [← List.take_add]
      congr 1
      omega
    rw [hsplit]
    show cacheLookup
      (List.foldl (runStep w dom) initState
        (pages.take n ++ (pages.drop n).take (m - n))).cache u = some v
    rw [List.foldl_append]
    exact runPages_cache_mono w dom _ _ u v h
  · intro p1 p2 u h1 h2 href1 href2
    have hk1 := runPages_key w dom pages initState p1 u h1 (stOK_init w dom) href1
    have hk2 := runPages_key w dom pages initState p2 u h2 (stOK_init w dom) href2
    have hmem : u ∈ (runPages w dom initState pages).probed :=
      (hst.2.1 u).mp (by simp [hk1.1])
    refine ⟨List.count_eq_one_of_mem hst.2.2 hmem, fun hb => ?_⟩
    obtain ⟨ps1, hps1, hm1⟩ := hk1.2 hb
    obtain ⟨ps2, hps2, hm2⟩ := hk2.2 hb
    obtain rfl : ps1 = ps2 := Option.some.inj (hps1.symm.trans hps2)
    exact ⟨ps1, hps1, hm1, hm2⟩

/-- Witness for C1: in `wDemo` both pages reference the same broken URL
(with different fragments); it is probed once and the finding lists both
pages. -/
theorem run_dedup_write_once_witness :
    referencesLink wDemo "x.com" "http://x.com/p1" "http://x.com/broken" ∧
    referencesLink wDemo "x.com" "http://x.com/p2" "http://x.com/broken" ∧
    badMsg (outcome wDemo "http://x.com/broken").2 = true ∧
    (runPages wDemo "x.com" initState
        ["http://x.com/p1", "http://x.com/p2"]).probed.count "http://x.com/broken" = 1 ∧
    (∃ ps, mapLookup (runPages wDemo "x.com" initState
        ["http://x.com/p1", "http://x.com/p2"]).bmap "http://x.com/broken" = some ps ∧
       "http://x.com/p1" ∈ ps ∧ "http://x.com/p2" ∈ ps) := by
  have href1 : referencesLink wDemo "x.com" "http://x.com/p1" "http://x.com/broken" :=
    ⟨200, ["http://x.com/broken#a", "http://x.com/ok", "mailto:a@b.com",
      "http://other.com/e"], by decide, by omega, by decide, by decide⟩
  have href2 : referencesLink wDemo "x.com" "http://x.com/p2" "http://x.com/broken" :=
    ⟨200, ["http://x.com/broken#b"], by decide, by omega, by decide, by decide⟩
  have h := (run_dedup_write_once wDemo "x.com"
    ["http://x.com/p1", "http://x.com/p2"]).2.2 "http://x.com/p1" "http://x.com/p2"
    "http://x.com/broken" (by decide) (by decide) href1 href2
  exact ⟨href1, href2, by decide, h.1, h.2 (by decide)⟩

/-- C4 counterexample: in `wScope`, `http://other.com/p` is an out-of-scope
candidate link of page `a` (so it is never queued, probed or cached), yet
the same URL appears in a finding of the final broken map, because it is
also a sitemap page whose own fetch returned 404.  This refutes the claim
that an out-of-scope candidate link never appears in any finding. -/
theorem scope_filter_counterexample :
    inScope "x.com" "http://other.com/p" = false ∧
    "http://other.com/p" ∈ pageLinks "http://x.com/a" ["http://other.com/p"] ∧
    (mainRun wScope "http://x.com/sitemap.xml").2.probed = [] ∧
    mapLookup (mainRun wScope "http://x.com/sitemap.xml").2.bmap "http://other.com/p" =
      some ["http://other.com/p"] := by decide

/-- C4 amended: an out-of-scope candidate link is never probed and never
enters the Result Cache; it can appear in the broken map only when the same
URL is itself a sitemap page whose own fetch returned status 400 or above,
in which case the finding is attributed to the page itself alone — never
through the link path. -/
theorem scope_filter_amended (w : World) (dom : String) (pages : List String) (u : String)
    (hu : inScope dom u = false) :
    u ∉ (runPages w dom initState pages).probed ∧
    cacheLookup (runPages w dom initState pages).cache u = none ∧
    (∀ ps, mapLookup (runPages w dom initState pages).bmap u = some ps →
       u ∈ pages ∧ (∃ code hrefs, w.page u = some (code, hrefs) ∧ 400 ≤ code) ∧
       ps = [u]) := by
  have hst := stOK_runPages w dom pages initState (stOK_init w dom)
  have hcache : cacheLookup (runPages w dom initState pages).cache u = none := by
    cases hc : cacheLookup (runPages w dom initState pages).cache u with
    | none => rfl
    | some v =>
      have := (hst.1 u v hc).2
      rw [this] at hu
      cases hu
  refine ⟨?_, hcache, ?_⟩
  · intro hm
    have := (hst.2.1 u).mpr hm
    rw [hcache] at this
    cases this
  · intro ps hps
    have hmap := mapOK_runPages w dom pages pages initState (fun p hp => hp)
      (by intro a b h; cases h) u ps hps
    rcases hmap with hin | hout
    · rw [hin] at hu; cases hu
    · exact hout

/-- Witness for C4 (amended): the out-of-scope URL of `wScope` is never
probed or cached, and its only map entry is the self-attributed 404 page. -/
theorem scope_filter_amended_witness :
    inScope "x.com" "http://other.com/p" = false ∧
    "http://other.com/p" ∉
      (runPages wScope "x.com" initState
        ["http://x.com/a", "http://other.com/p"]).probed ∧
    cacheLookup (runPages wScope "x.com" initState
        ["http://x.com/a", "http://other.com/p"]).cache "http://other.com/p" = none ∧
    ("http://other.com/p" ∈ ["http://x.com/a", "http://other.com/p"] ∧
      (∃ code hrefs, wScope.page "http://other.com/p" = some (code, hrefs) ∧ 400 ≤ code) ∧
      ["http://other.com/p"] = ["http://other.com/p"]) := by
  have h := scope_filter_amended wScope "x.com" ["http://x.com/a", "http://other.com/p"]
    "http://other.com/p" (by decide)
  exact ⟨by decide, h.1, h.2.1, h.2.2 ["http://other.com/p"] (by decide)⟩

/-- C6: with a hostname extractable from the sitemap URL, the exit status
is 0 exactly when the sitemap GET succeeds (status outside 400-599), at
least one page URL is found, and the broken-link map is empty at the end;
and it is 1 exactly otherwise (sitemap failure, zero pages, or at least one
broken link). -/
theorem exit_status_spec (w : World) (s dom : String)
    (hdom : (urlsplit s "").hostname = some dom) :
    ((mainRun w s).1 = 0 ↔
      (∃ code locs, w.sitemap = .ok code locs ∧ ¬(400 ≤ code ∧ code < 600) ∧
        get_sitemap_urls w ≠ [] ∧
        (runPages w dom initState (get_sitemap_urls w)).bmap = [])) ∧
    ((mainRun w s).1 = 1 ↔
      ¬(∃ code locs, w.sitemap = .ok code locs ∧ ¬(400 ≤ code ∧ code < 600) ∧
        get_sitemap_urls w ≠ [] ∧
        (runPages w dom initState (get_sitemap_urls w)).bmap = [])) := by
  by_cases hp : get_sitemap_urls w = []
  · have hexit : (mainRun w s).1 = 1 := by
      simp [mainRun, hdom, hp]
    rw [hexit]
    constructor
    · constructor
      · intro h; cases h
      · rintro ⟨_, _, _, _, hne, _⟩
        exact absurd hp hne
    · constructor
      · rintro - ⟨_, _, _, _, hne, _⟩
        exact absurd hp hne
      · intro _; rfl
  · have hload : ∃ code locs, w.sitemap = .ok code locs ∧ ¬(400 ≤ code ∧ code < 600) := by
      cases hs : w.sitemap with
      | failure => exact absurd (by simp [get_sitemap_urls, hs]) hp
      | ok code locs =>
        by_cases hr : 400 ≤ code ∧ code < 600
        · exact absurd (by simp [get_sitemap_urls, hs, hr]) hp
        · exact ⟨code, locs, rfl, hr⟩
    by_cases hb : (runPages w dom initState (get_sitemap_urls w)).bmap = []
    · have hexit : (mainRun w s).1 = 0 := by
        simp [mainRun, hdom, hp, hb]
      rw [hexit]
      obtain ⟨code, locs, hs, hr⟩ := hload
      constructor
      · simp only [true_iff]
        exact ⟨code, locs, hs, hr, hp, hb⟩
      · constructor
        · intro h; cases h
        · intro h
          exact absurd ⟨code, locs, hs, hr, hp, hb⟩ h
    · have hexit : (mainRun w s).1 = 1 := by
        simp [mainRun, hdom, hp, hb]
      rw [hexit]
      constructor
      · constructor
        · intro h; cases h
        · rintro ⟨_, _, _, _, _, hbm⟩
          exact absurd hbm hb
      · constructor
        · rintro - ⟨_, _, _, _, _, hbm⟩
          exact absurd hbm hb
        · intro _; rfl

/-- Witness for C6: the demo run finds a broken link and exits 1; the same
world with no broken responses exits 0 is reflected by the iff applied at
the demo world. -/
theorem exit_status_spec_witness :
    (urlsplit "http://x.com/sitemap.xml" "").hostname = some "x.com" ∧
    (mainRun wDemo "http://x.com/sitemap.xml").1 = 1 ∧
    ¬(∃ code locs, wDemo.sitemap = .ok code locs ∧ ¬(400 ≤ code ∧ code < 600) ∧
        get_sitemap_urls wDemo ≠ [] ∧
        (runPages wDemo "x.com" initState (get_sitemap_urls wDemo)).bmap = []) := by
  have h := exit_status_spec wDemo "http://x.com/sitemap.xml" "x.com" (by decide)
  have hexit : (mainRun wDemo "http://x.com/sitemap.xml").1 = 1 := by decide
  exact ⟨by decide, hexit, h.2.mp hexit⟩

/-- C7 counterexample: a sitemap network failure makes the loader return
the empty list, the very value a successful load with zero loc entries
returns — the two cases are not distinguished, contrary to the claim that
a failure surfaces as a fatal `FetchError` distinct from an empty success. -/
theorem sitemap_loader_counterexample :
    wErrSitemap.sitemap = .failure ∧
    wEmptySitemap.sitemap = .ok 200 [] ∧
    get_sitemap_urls wErrSitemap = get_sitemap_urls wEmptySitemap ∧
    get_sitemap_urls wErrSitemap = [] := by decide

/-- C7 amended: the loader returns every loc text in document order when
the GET succeeds with status outside 400-599; on a network failure or a
400-599 status it returns the empty list — the same value as a successful
zero-loc load — and `main` then treats any empty result as fatal, exiting
with status 1. -/
theorem sitemap_loader_amended (w : World) (s : String) :
    (∀ code locs, w.sitemap = .ok code locs → ¬(400 ≤ code ∧ code < 600) →
       get_sitemap_urls w = locs) ∧
    (w.sitemap = .failure → get_sitemap_urls w = []) ∧
    (∀ code locs, w.sitemap = .ok code locs → 400 ≤ code → code < 600 →
       get_sitemap_urls w = []) ∧
    (get_sitemap_urls w = [] → (mainRun w s).1 = 1) := by
  refine ⟨?_, ?_, ?_, ?_⟩
  · intro code locs hs hr
    simp [get_sitemap_urls, hs, hr]
  · intro hs
    simp [get_sitemap_urls, hs]
  · intro code locs hs h4 h6
    simp [get_sitemap_urls, hs, h4, h6]
  · intro hp
    unfold mainRun
    cases hh : (urlsplit s "").hostname with
    | none => rfl
    | some dom => simp [hp]

/-- Witness for C7 (amended): concrete sitemap worlds exercising the
success, network-failure and error-status cases, and the resulting exit 1. -/
theorem sitemap_loader_amended_witness :
    wDemo.sitemap = .ok 200 ["http://x.com/p1", "http://x.com/p2"] ∧
    get_sitemap_urls wDemo = ["http://x.com/p1", "http://x.com/p2"] ∧
    wErrSitemap.sitemap = .failure ∧
    get_sitemap_urls wErrSitemap = [] ∧
    (mainRun wErrSitemap "http://x.com/sitemap.xml").1 = 1 := by
  have h1 := (sitemap_loader_amended wDemo "http://x.com/sitemap.xml").1 200
    ["http://x.com/p1", "http://x.com/p2"] rfl (by omega)
  have herr := (sitemap_loader_amended wErrSitemap "http://x.com/sitemap.xml").2.1 rfl
  have hexit := (sitemap_loader_amended wErrSitemap "http://x.com/sitemap.xml").2.2.2 herr
  exact ⟨by decide, h1, by decide, herr, hexit⟩

/-- C5: normalization resolves the href against the page URL and rebuilds
the result from the scheme, netloc, path and query of the resolved URL with the
fragment emptied; hence any two hrefs on a page whose resolved URLs agree
on everything but the fragment normalize to the same deduplication key.
The concrete instances exercise the fragment-invariance example of the spec and
a relative href with a query. -/
theorem normalize_fragment_only (page href : String) :
    normalize_href page href =
      urlunsplit { urlsplit (urljoin page href) "" with fragment := "" } ∧
    (∀ u1 u2 : String,
       (urlsplit (urljoin page u1) "").scheme = (urlsplit (urljoin page u2) "").scheme →
       (urlsplit (urljoin page u1) "").netloc = (urlsplit (urljoin page u2) "").netloc →
       (urlsplit (urljoin page u1) "").path = (urlsplit (urljoin page u2) "").path →
       (urlsplit (urljoin page u1) "").query = (urlsplit (urljoin page u2) "").query →
       normalize_href page u1 = normalize_href page u2) ∧
    normalize_href "https://x.com/" "https://x.com/a#top" = "https://x.com/a" ∧
    normalize_href "https://x.com/" "https://x.com/a#bottom" = "https://x.com/a" ∧
    normalize_href "https://x.com/d/p" "../a?q=1#f" = "https://x.com/a?q=1" ∧
    urlsplit (normalize_href "https://x.com/d/p" "../a?q=1#f") "" =
      ⟨"https", "x.com", "/a", "q=1", ""⟩ := by
  refine ⟨rfl, ?_, by decide, by decide, by decide, by decide⟩
  intro u1 u2 hs hn hp hq
  show urlunsplit { urlsplit (urljoin page u1) "" with fragment := "" } =
    urlunsplit { urlsplit (urljoin page u2) "" with fragment := "" }
  congr 1
  rw [SplitResult.mk.injEq]
  exact ⟨hs, hn, hp, hq, rfl⟩

/-- Witness for C5: the two fragment-variants of the spec example resolve
to component-equal URLs and get the same deduplication key. -/
theorem normalize_fragment_only_witness :
    (urlsplit (urljoin "https://x.com/" "https://x.com/a#top") "").scheme =
      (urlsplit (urljoin "https://x.com/" "https://x.com/a#bottom") "").scheme ∧
    (urlsplit (urljoin "https://x.com/" "https://x.com/a#top") "").netloc =
      (urlsplit (urljoin "https://x.com/" "https://x.com/a#bottom") "").netloc ∧
    (urlsplit (urljoin "https://x.com/" "https://x.com/a#top") "").path =
      (urlsplit (urljoin "https://x.com/" "https://x.com/a#bottom") "").path ∧
    (urlsplit (urljoin "https://x.com/" "https://x.com/a#top") "").query =
      (urlsplit (urljoin "https://x.com/" "https://x.com/a#bottom") "").query ∧
    normalize_href "https://x.com/" "https://x.com/a#top" =
      normalize_href "https://x.com/" "https://x.com/a#bottom" :=
  ⟨by decide, by decide, by decide, by decide,
   (normalize_fragment_only "https://x.com/" "https://x.com/a#top").2.1
     "https://x.com/a#top" "https://x.com/a#bottom"
     (by decide) (by decide) (by decide) (by decide)⟩

/-- The lexicographic order on character lists is total. -/
theorem lexLe_total : ∀ a b : List Char, lexLe a b = true ∨ lexLe b a = true
  | [], _ => Or.inl rfl
  | _ :: _, [] => Or.inr rfl
  | a :: as, b :: bs => by
    by_cases hab : a = b
    · subst hab
      simpa [lexLe] using lexLe_total as bs
    · have hba : b ≠ a := fun h => hab h.symm
      rcases Nat.lt_or_ge a.toNat b.toNat with h | h
      · exact Or.inl (by simp [lexLe, hab, h])
      · have hlt : b.toNat < a.toNat :=
          Nat.lt_of_le_of_ne h (fun hh => hab (Char.ext (UInt32.ext hh.symm)))
        exact Or.inr (by simp [lexLe, hba, hlt])

/-- The lexicographic order on character lists is transitive. -/
theorem lexLe_trans : ∀ a b c : List Char,
    lexLe a b = true → lexLe b c = true → lexLe a c = true
  | [], _, _, _, _ => rfl
  | _ :: _, [], _, h1, _ => by simp [lexLe] at h1
  | _ :: _, _ :: _, [], _, h2 => by simp [lexLe] at h2
  | a :: as, b :: bs, c :: cs, h1, h2 => by
    by_cases hab : a = b
    · subst hab
      simp only [lexLe, if_pos rfl] at h1
      by_cases hac : a = c
      · subst hac
        simp only [lexLe, if_pos rfl] at h2 ⊢
        exact lexLe_trans as bs cs h1 h2
      · simpa [lexLe, hac] using h2
    · simp only [lexLe, hab, if_false, decide_eq_true_eq] at h1
      by_cases hbc : b = c
      · subst hbc
        simp [lexLe, hab, h1]
      · simp only [lexLe, hbc, if_false, decide_eq_true_eq] at h2
        have hlt : a.toNat < c.toNat := Nat.lt_trans h1 h2
        have hac : a ≠ c := fun h => by
          subst h
          exact Nat.lt_irrefl _ hlt
        simp [lexLe, hac, hlt]

/-- The lexicographic order on character lists is antisymmetric. -/
theorem lexLe_antisymm : ∀ a b : List Char,
    lexLe a b = true → lexLe b a = true → a = b
  | [], [], _, _ => rfl
  | [], _ :: _, _, h2 => by simp [lexLe] at h2
  | _ :: _, [], h1, _ => by simp [lexLe] at h1
  | a :: as, b :: bs, h1, h2 => by
    by_cases hab : a = b
    · subst hab
      simp only [lexLe, if_pos rfl] at h1 h2
      rw [lexLe_antisymm as bs h1 h2]
    · have hba : b ≠ a := fun h => hab h.symm
      simp only [lexLe, hab, hba, if_false, decide_eq_true_eq] at h1 h2
      exact absurd (Nat.lt_trans h1 h2) (Nat.lt_irrefl _)

/-- String comparison is total. -/
theorem strLe_total (a b : String) : strLe a b = true ∨ strLe b a = true :=
  lexLe_total a.data b.data

/-- String comparison is transitive. -/
theorem strLe_trans (a b c : String) (h1 : strLe a b = true) (h2 : strLe b c = true) :
    strLe a c = true :=
  lexLe_trans a.data b.data c.data h1 h2

/-- String comparison is antisymmetric. -/
theorem strLe_antisymm (a b : String) (h1 : strLe a b = true) (h2 : strLe b a = true) :
    a = b :=
  String.ext (lexLe_antisymm a.data b.data h1 h2)

/-- Sorted insertion produces a permutation of the pushed list. -/
theorem perm_insertLe {α : Type} (le : α → α → Bool) (a : α) :
    ∀ l : List α, (insertLe le a l).Perm (a :: l)
  | [] => List.Perm.refl _
  | b :: bs => by
    unfold insertLe
    split
    · exact List.Perm.refl _
    · exact List.Perm.trans (List.Perm.cons b (perm_insertLe le a bs))
        (List.Perm.swap a b bs)

/-- Insertion sort permutes its input. -/
theorem perm_sortLe {α : Type} (le : α → α → Bool) :
    ∀ l : List α, (sortLe le l).Perm l
  | [] => List.Perm.refl _
  | a :: as =>
    List.Perm.trans (perm_insertLe le a (sortLe le as))
      (List.Perm.cons a (perm_sortLe le as))

/-- Sorted insertion into a sorted list stays sorted. -/
theorem pairwise_insertLe {α : Type} (le : α → α → Bool)
    (htrans : ∀ x y z, le x y = true → le y z = true → le x z = true)
    (htot : ∀ x y, le x y = true ∨ le y x = true) (a : α) :
    ∀ l : List α, l.Pairwise (fun x y => le x y = true) →
      (insertLe le a l).Pairwise (fun x y => le x y = true)
  | [], _ => List.pairwise_cons.mpr ⟨by simp, List.Pairwise.nil⟩
  | b :: bs, h => by
    obtain ⟨hb, hbs⟩ := List.pairwise_cons.mp h
    unfold insertLe
    split
    case isTrue hab =>
      refine List.pairwise_cons.mpr ⟨?_, h⟩
      intro x hx
      rcases List.mem_cons.mp hx with rfl | hx
      · exact hab
      · exact htrans a b x hab (hb x hx)
    case isFalse hab =>
      refine List.pairwise_cons.mpr ⟨?_, pairwise_insertLe le htrans htot a bs hbs⟩
      intro x hx
      have hx' := (perm_insertLe le a bs).subset hx
      rcases List.mem_cons.mp hx' with rfl | hx'
      · rcases htot x b with h' | h'
        · exact absurd h' hab
        · exact h'
      · exact hb x hx'

/-- Insertion sort sorts. -/
theorem pairwise_sortLe {α : Type} (le : α → α → Bool)
    (htrans : ∀ x y z, le x y = true → le y z = true → le x z = true)
    (htot : ∀ x y, le x y = true ∨ le y x = true) :
    ∀ l : List α, (sortLe le l).Pairwise (fun x y => le x y = true)
  | [] => List.Pairwise.nil
  | a :: as =>
    pairwise_insertLe le htrans htot a (sortLe le as)
      (pairwise_sortLe le htrans htot as)

/-- Two key-sorted permutations of each other with duplicate-free keys are
equal: the sorted report is independent of accumulation order. -/
theorem sorted_nodupkeys_perm_eq {α : Type} (key : α → String) :
    ∀ l1 l2 : List α, l1.Perm l2 →
      l1.Pairwise (fun x y => strLe (key x) (key y) = true) →
      l2.Pairwise (fun x y => strLe (key x) (key y) = true) →
      (l1.map key).Nodup → l1 = l2
  | [], l2, hperm, _, _, _ => hperm.nil_eq
  | a :: t1, [], hperm, _, _, _ => by
    have := hperm.symm.nil_eq
    cases this
  | a :: t1, b :: t2, hperm, hpw1, hpw2, hnd => by
    by_cases hab : a = b
    · subst hab
      obtain ⟨_, hpw1'⟩ := List.pairwise_cons.mp hpw1
      obtain ⟨_, hpw2'⟩ := List.pairwise_cons.mp hpw2
      have hnd' : (t1.map key).Nodup := (List.nodup_cons.mp hnd).2
      rw [sorted_nodupkeys_perm_eq key t1 t2 hperm.cons_inv hpw1' hpw2' hnd']
    · have hamem : a ∈ t2 := by
        have := hperm.subset (List.mem_cons_self a t1)
        rcases List.mem_cons.mp this with h | h
        · exact absurd h hab
        · exact h
      have hbmem : b ∈ t1 := by
        have := hperm.symm.subset (List.mem_cons_self b t2)
        rcases List.mem_cons.mp this with h | h
        · exact absurd h.symm hab
        · exact h
      have h1 : strLe (key a) (key b) = true :=
        (List.pairwise_cons.mp hpw1).1 b hbmem
      have h2 : strLe (key b) (key a) = true :=
        (List.pairwise_cons.mp hpw2).1 a hamem
      have hkey : key a = key b := strLe_antisymm _ _ h1 h2
      have : key a ∈ t1.map key := hkey ▸ List.mem_map_of_mem key hbmem
      exact absurd this (List.nodup_cons.mp hnd).1

/-- Sorting by key commutes with a key-preserving transformation of the
entries. -/
theorem insertLe_key_map (f : (String × List String) → (String × List String))
    (hf : ∀ e, (f e).1 = e.1) (a : String × List String) :
    ∀ l : List (String × List String),
      insertLe (fun x y => strLe x.1 y.1) (f a) (l.map f) =
        (insertLe (fun x y => strLe x.1 y.1) a l).map f
  | [] => rfl
  | b :: bs => by
    have hcond : strLe (f a).1 (f b).1 = strLe a.1 b.1 := by rw [hf, hf]
    by_cases h : strLe a.1 b.1 = true
    · simp [insertLe, hcond, h]
    · simp [insertLe, hcond, h, insertLe_key_map f hf a bs]

/-- Sorting the broken map by key commutes with sorting each page set. -/
theorem sortLe_key_map (f : (String × List String) → (String × List String))
    (hf : ∀ e, (f e).1 = e.1) :
    ∀ m : List (String × List String),
      sortLe (fun x y => strLe x.1 y.1) (m.map f) =
        (sortLe (fun x y => strLe x.1 y.1) m).map f
  | [] => rfl
  | a :: as => by
    simp only [List.map_cons, sortLe, sortLe_key_map f hf as]
    exact insertLe_key_map f hf a _

/-- The report is the key-sort of the page-set-canonicalized map. -/
theorem finalReport_eq_sort_canon (m : BrokenMap) :
    finalReport m =
      sortLe (fun x y => strLe x.1 y.1) (m.map (fun e => (e.1, sortLe strLe e.2))) := by
  rw [finalReport, sortLe_key_map (fun e => (e.1, sortLe strLe e.2)) (fun _ => rfl) m]

/-- C9: the final report lists broken links sorted by normalized URL, each
with its referencing pages sorted by page URL; its content is exactly the
content of the accumulated map; and any two accumulations that agree as sets of
(key, page-set) pairs — in particular those produced under different probe
completion orders — print the identical report. -/
theorem report_sorted_deterministic (m m' : BrokenMap) :
    ((finalReport m).map Prod.fst).Pairwise (fun a b => strLe a b = true) ∧
    (∀ e ∈ finalReport m, e.2.Pairwise (fun a b => strLe a b = true)) ∧
    ((finalReport m).map Prod.fst).Perm (m.map Prod.fst) ∧
    (∀ e ∈ finalReport m, ∃ ps, (e.1, ps) ∈ m ∧ e.2.Perm ps) ∧
    ((m.map (fun e => (e.1, sortLe strLe e.2))).Perm
        (m'.map (fun e => (e.1, sortLe strLe e.2))) →
      (m.map Prod.fst).Nodup → finalReport m = finalReport m') := by
  have htransk : ∀ x y z : String × List String, strLe x.1 y.1 = true →
      strLe y.1 z.1 = true → strLe x.1 z.1 = true :=
    fun x y z h1 h2 => strLe_trans _ _ _ h1 h2
  have htotk : ∀ x y : String × List String, strLe x.1 y.1 = true ∨ strLe y.1 x.1 = true :=
    fun x y => strLe_total _ _
  have hpwk := pairwise_sortLe (fun x y : String × List String => strLe x.1 y.1)
    htransk htotk m
  refine ⟨?_, ?_, ?_, ?_, ?_⟩
  · rw [finalReport, List.map_map]
    have : (Prod.fst ∘ fun e : String × List String => (e.1, sortLe strLe e.2)) =
        Prod.fst := rfl
    rw [this]
    exact List.pairwise_map.mpr hpwk
  · intro e he
    rw [finalReport] at he
    obtain ⟨e0, _, rfl⟩ := List.mem_map.mp he
    exact pairwise_sortLe strLe strLe_trans strLe_total e0.2
  · rw [finalReport, List.map_map]
    have : (Prod.fst ∘ fun e : String × List String => (e.1, sortLe strLe e.2)) =
        Prod.fst := rfl
    rw [this]
    exact (perm_sortLe _ m).map Prod.fst
  · intro e he
    rw [finalReport] at he
    obtain ⟨e0, he0, rfl⟩ := List.mem_map.mp he
    exact ⟨e0.2, (perm_sortLe _ m).subset he0, perm_sortLe strLe e0.2⟩
  · intro hperm hnd
    rw [finalReport_eq_sort_canon m, finalReport_eq_sort_canon m']
    have hA := pairwise_sortLe (fun x y : String × List String => strLe x.1 y.1)
      htransk htotk (m.map (fun e => (e.1, sortLe strLe e.2)))
    have hB := pairwise_sortLe (fun x y : String × List String => strLe x.1 y.1)
      htransk htotk (m'.map (fun e => (e.1, sortLe strLe e.2)))
    have hAB : (sortLe (fun x y : String × List String => strLe x.1 y.1)
        (m.map (fun e => (e.1, sortLe strLe e.2)))).Perm
        (sortLe (fun x y : String × List String => strLe x.1 y.1)
          (m'.map (fun e => (e.1, sortLe strLe e.2)))) :=
      ((perm_sortLe _ _).trans hperm).trans (perm_sortLe _ _).symm
    have hndA : ((sortLe (fun x y : String × List String => strLe x.1 y.1)
        (m.map (fun e => (e.1, sortLe strLe e.2)))).map Prod.fst).Nodup := by
      have hkeys : ((m.map (fun e => (e.1, sortLe strLe e.2))).map Prod.fst) =
          m.map Prod.fst := by
        rw [List.map_map]
        rfl
      have := ((perm_sortLe (fun x y : String × List String => strLe x.1 y.1)
        (m.map (fun e => (e.1, sortLe strLe e.2)))).map Prod.fst).nodup_iff
      rw [hkeys] at this
      exact this.mpr hnd
    exact sorted_nodupkeys_perm_eq Prod.fst _ _ hAB hA hB hndA

/-- Witness for C9: two accumulation orders of the demo findings print the
identical sorted report. -/
theorem report_sorted_deterministic_witness :
    (([("http://x.com/b", ["http://x.com/p2", "http://x.com/p1"]),
       ("http://x.com/a", ["http://x.com/p1"])].map
        (fun e : String × List String => (e.1, sortLe strLe e.2))).Perm
      ([("http://x.com/a", ["http://x.com/p1"]),
        ("http://x.com/b", ["http://x.com/p1", "http://x.com/p2"])].map
        (fun e : String × List String => (e.1, sortLe strLe e.2)))) ∧
    (([("http://x.com/b", ["http://x.com/p2", "http://x.com/p1"]),
       ("http://x.com/a", ["http://x.com/p1"])].map Prod.fst).Nodup) ∧
    finalReport [("http://x.com/b", ["http://x.com/p2", "http://x.com/p1"]),
       ("http://x.com/a", ["http://x.com/p1"])] =
      finalReport [("http://x.com/a", ["http://x.com/p1"]),
       ("http://x.com/b", ["http://x.com/p1", "http://x.com/p2"])] :=
  ⟨by decide, by decide,
   (report_sorted_deterministic
      [("http://x.com/b", ["http://x.com/p2", "http://x.com/p1"]),
       ("http://x.com/a", ["http://x.com/p1"])]
      [("http://x.com/a", ["http://x.com/p1"]),
       ("http://x.com/b", ["http://x.com/p1", "http://x.com/p2"])]).2.2.2.2
     (by decide) (by decide)⟩

end LinkCheck
